import Mathlib

/-!
Shallow embedding of the audio-transcription pipeline in `main.py`.

Millisecond positions and durations are `ℕ` (pydub reports integer
milliseconds); megabyte sizes and second-valued timestamps are `ℚ`
(Python floats modelled as exact rationals).  External effects are
abstracted into explicit inputs: the decoded audio is a record of its
length and the non-silent ranges pydub reports, the remote API call is
an `Option` result, and a raised exception is `Except.error`.
-/

/-- Whisper-style segment of a transcript dictionary.  The field `stop`
embeds the JSON key named end.  `start` and `stop` are optional because
the source reads them with `segment.get(..., 0.0)`; `id` and `text`
stand for the remaining keys, which `merge_transcripts` must copy
through untouched via `segment.copy()`. -/
structure Segment where
  id : ℕ
  start : Option ℚ
  stop : Option ℚ
  text : String
deriving DecidableEq

/-- Transcript dictionary produced for one chunk (the `model_dump` of a
structured transcription response).  Every field the source reads with
`dict.get` and a default is optional here. -/
structure TranscriptDict where
  text : Option String
  language : Option String
  task : Option String
  duration : Option ℚ
  segments : List Segment
deriving DecidableEq

/-- A fragment handed to `merge_transcripts`: either a plain string or a
structured dictionary (the source distinguishes them with
`isinstance(transcript, str)`, main.py line 242). -/
inductive Transcript where
  | str (s : String)
  | dict (d : TranscriptDict)
deriving DecidableEq

/-- Merged transcript assembled by `merge_transcripts`.  The source
finally converts `duration` to a string for output; we keep the
rational value it stringifies. -/
structure MergedTranscript where
  text : String
  language : String
  task : String
  duration : ℚ
  segments : List Segment
deriving DecidableEq

/-- State of the merge loop: the accumulated text parts, summed
duration, emitted segments and the running `time_offset`
(main.py lines 229-263). -/
structure MergeState where
  textParts : List String
  duration : ℚ
  segments : List Segment
  timeOffset : ℚ
deriving DecidableEq

/-- Copy of a segment with `start` and end shifted by the running
offset (main.py lines 256-259); all other fields are kept by the
`copy()`. -/
def adjustSegment (off : ℚ) (s : Segment) : Segment :=
  { s with start := some (s.start.getD 0 + off), stop := some (s.stop.getD 0 + off) }

/-- One iteration of the merge loop (main.py lines 241-263): a plain
string only appends its text; a dictionary appends its text, adds its
duration, emits its shifted segments and advances the offset. -/
def mergeStep (st : MergeState) (t : Transcript) : MergeState :=
  match t with
  | .str s => { st with textParts := st.textParts ++ [s] }
  | .dict d =>
    let chunkDuration := d.duration.getD 0
    { textParts := st.textParts ++ [d.text.getD ""]
      duration := st.duration + chunkDuration
      segments := st.segments ++ d.segments.map (adjustSegment st.timeOffset)
      timeOffset := st.timeOffset + chunkDuration }

/-- The merge loop, a left fold of `mergeStep` over all fragments. -/
def mergeLoop (st : MergeState) : List Transcript → MergeState
  | [] => st
  | t :: ts => mergeLoop (mergeStep st t) ts

/-- Embedding of `merge_transcripts` (main.py lines 221-271).  An empty
input returns `none` (Python `None`).  When the first element is a
plain string, the initialisation `transcripts[0].get("language", ...)`
raises `AttributeError`, embedded as `Except.error ()`. -/
def merge_transcripts (ts : List Transcript) : Except Unit (Option MergedTranscript) :=
  match ts with
  | [] => .ok none
  | .str _ :: _ => .error ()
  | .dict d0 :: _ =>
    let st := mergeLoop ⟨[], 0, [], 0⟩ ts
    .ok (some
      { text := String.intercalate " " st.textParts
        language := d0.language.getD "mixed"
        task := d0.task.getD "transcribe"
        duration := st.duration
        segments := st.segments })

/-- Text a fragment contributes: the plain string itself, or the
dictionary's text with the source's `""` default. -/
def fragText : Transcript → String
  | .str s => s
  | .dict d => d.text.getD ""

/-- Duration a fragment contributes to the running offset: a plain
string contributes nothing (the loop `continue`s before reading a
duration), a dictionary its `duration` with the `0.0` default. -/
def fragDuration : Transcript → ℚ
  | .str _ => 0
  | .dict d => d.duration.getD 0

/-- Segments carried by a fragment. -/
def fragSegments : Transcript → List Segment
  | .str _ => []
  | .dict d => d.segments

/-- Segment list the merge emits when started at offset `off`: each
fragment's segments in order, shifted by `off` plus the durations of
the fragments already passed. -/
def segsFrom (off : ℚ) : List Transcript → List Segment
  | [] => []
  | t :: ts => (fragSegments t).map (adjustSegment off) ++ segsFrom (off + fragDuration t) ts

/-- Sum of the durations of the fragments strictly before index `i`. -/
def durationBefore (ts : List Transcript) (i : ℕ) : ℚ :=
  ((ts.take i).map fragDuration).sum

/-- Decoded audio as the splitter observes it: `len(audio)` in
milliseconds and the non-silent ranges reported by pydub's
`detect_nonsilent`. -/
structure AudioData where
  totalDurationMs : ℕ
  nonSilentRanges : List (ℕ × ℕ)
deriving DecidableEq

/-- Embedding of `detect_silence` (main.py lines 167-200): invert the
non-silent ranges into the silence map.  With no non-silent range the
whole timeline is one silence; otherwise a gap before the first range,
each gap between consecutive ranges, and a gap after the last range
become silences. -/
def detect_silence (nonSilent : List (ℕ × ℕ)) (totalLen : ℕ) : List (ℕ × ℕ) :=
  match nonSilent with
  | [] => [(0, totalLen)]
  | first :: _ =>
    (if 0 < first.1 then [(0, first.1)] else []) ++
    (List.zipWith (fun a b => (a.2, b.1)) nonSilent nonSilent.tail) ++
    (match nonSilent.getLast? with
     | some last => if last.2 < totalLen then [(last.2, totalLen)] else []
     | none => [])

/-- The target chunk duration (main.py line 103):
`math.floor(total_duration_ms * (target_size_mb / file_size))`.
The quantity is nonnegative for the sizes that occur, so `Int.toNat`
is exact. -/
def targetChunkDuration (totalDurationMs : ℕ) (targetSizeMB fileSizeMB : ℚ) : ℕ :=
  (Int.floor ((totalDurationMs : ℚ) * (targetSizeMB / fileSizeMB))).toNat

/-- One step of the silence-selection loop (main.py lines 133-138).
The accumulator is `closest_silence` paired with `min_distance`
(`none` plays the initial `float(inf)`).  A candidate replaces it when
its start lies strictly after `start_pos`, its distance to
`ideal_end_pos` beats the minimum, and the source's size guard
`abs(silence_start - start_pos) / 1000 * (file_size / total_duration_ms)
  <= target_size_mb + size_tolerance_mb`
holds — note the division by 1000 appearing in the source. -/
def silenceCandidate (startPos idealEndPos totalDurationMs : ℕ) (fileSizeMB budgetMB : ℚ)
    (acc : Option ((ℕ × ℕ) × ℕ)) (p : ℕ × ℕ) : Option ((ℕ × ℕ) × ℕ) :=
  if startPos < p.1 then
    let distance := ((p.1 : ℤ) - (idealEndPos : ℤ)).natAbs
    if ((((p.1 : ℤ) - (startPos : ℤ)).natAbs : ℚ) / 1000 * (fileSizeMB / (totalDurationMs : ℚ)) ≤ budgetMB) then
      match acc with
      | none => some (p, distance)
      | some (q, minDist) => if distance < minDist then some (p, distance) else some (q, minDist)
    else acc
  else acc

/-- The `for silence_start, silence_end in silence_periods` search for
the silence whose start is closest to the ideal end position
(main.py lines 129-138), returning `closest_silence`. -/
def findClosestSilence (silences : List (ℕ × ℕ)) (startPos idealEndPos totalDurationMs : ℕ)
    (fileSizeMB budgetMB : ℚ) : Option (ℕ × ℕ) :=
  (silences.foldl (silenceCandidate startPos idealEndPos totalDurationMs fileSizeMB budgetMB) none).map
    Prod.fst

/-- End position chosen for the chunk starting at `startPos`
(main.py lines 122-144): the end of the timeline when the ideal end
reaches it, else the selected silence's start, else the ideal end. -/
def chunkEnd (silences : List (ℕ × ℕ)) (totalDurationMs targetDur : ℕ)
    (fileSizeMB budgetMB : ℚ) (startPos : ℕ) : ℕ :=
  let idealEndPos := startPos + targetDur
  if totalDurationMs ≤ idealEndPos then totalDurationMs
  else
    match findClosestSilence silences startPos idealEndPos totalDurationMs fileSizeMB budgetMB with
    | some p => p.1
    | none => idealEndPos

/-- The chunking `while` loop (main.py lines 121-163), fuelled:
`none` models a run that does not finish within `fuel` iterations. -/
def splitLoop (silences : List (ℕ × ℕ)) (totalDurationMs targetDur : ℕ)
    (fileSizeMB budgetMB : ℚ) : ℕ → ℕ → Option (List (ℕ × ℕ))
  | 0, _ => none
  | fuel + 1, startPos =>
    if startPos < totalDurationMs then
      (splitLoop silences totalDurationMs targetDur fileSizeMB budgetMB fuel
          (chunkEnd silences totalDurationMs targetDur fileSizeMB budgetMB startPos)).map
        (fun rest =>
          (startPos, chunkEnd silences totalDurationMs targetDur fileSizeMB budgetMB startPos) :: rest)
    else some []

/-- Result of `split_audio_file`: the untouched original file path, or
exported chunk files with their half-open millisecond ranges. -/
inductive SplitOutcome where
  | original
  | chunks (ranges : List (ℕ × ℕ))
deriving DecidableEq

/-- Embedding of `split_audio_file` (main.py lines 86-165).
`decoded = none` models `AudioSegment.from_file` raising on line 99 —
the call is not guarded by any `try`, so the error escapes as
`Except.error ()`.  The inner `none` is the fuelled loop failing to
terminate. -/
def split_audio_file (fileSizeMB : ℚ) (decoded : Option AudioData)
    (targetSizeMB sizeToleranceMB : ℚ) (fuel : ℕ) :
    Except Unit (Option SplitOutcome) :=
  if fileSizeMB ≤ targetSizeMB + sizeToleranceMB then .ok (some .original)
  else
    match decoded with
    | none => .error ()
    | some a =>
      .ok ((splitLoop (detect_silence a.nonSilentRanges a.totalDurationMs)
              a.totalDurationMs
              (targetChunkDuration a.totalDurationMs targetSizeMB fileSizeMB)
              fileSizeMB (targetSizeMB + sizeToleranceMB) fuel 0).map .chunks)

/-- Fate of one audio path handed to `transcribe_audio` (main.py lines
53-84): its size on disk, whether `os.path.exists` succeeds, whether
the pydub verification load succeeds, and what the remote call returns
(`none` models an exception, which the function catches and turns into
Python `None`). -/
structure ChunkFate where
  sizeMB : ℚ
  onDisk : Bool
  decodable : Bool
  apiResult : Option TranscriptDict
deriving DecidableEq

/-- Whether `transcribe_audio` reaches
`client.audio.transcriptions.create` for this file.  The source checks
existence (line 56) and pydub decodability (line 62) only; no size
comparison appears anywhere in the function. -/
def transcribe_audio_submits (c : ChunkFate) : Bool :=
  c.onDisk && c.decodable

/-- Embedding of `transcribe_audio`: the transcript dictionary, or
`none` when any check or the remote call fails (every exception is
caught and converted to `None`, lines 82-84). -/
def transcribe_audio (c : ChunkFate) : Option TranscriptDict :=
  if c.onDisk && c.decodable then c.apiResult else none

/-- One source file as the batch driver sees it after the startup
cleanup emptied both chunk folders: its size, its decode result for
the splitter, and the fate of each audio path subsequently handed to
`transcribe_audio` (index `i` is the i-th submitted path). -/
structure SourceFile where
  sizeMB : ℚ
  decoded : Option AudioData
  chunkFates : ℕ → ChunkFate

/-- Result the driver receives for one source file: a single
transcript dictionary or a merged transcript. -/
inductive PipelineResult where
  | single (d : TranscriptDict)
  | merged (m : MergedTranscript)

/-- The transcripts gathered by the per-chunk loop (main.py lines
402-423): one `transcribe_audio` call per chunk path, failed chunks
silently skipped (`if transcript:` plus the inner `try`/`continue`). -/
def collectTranscripts (f : SourceFile) (n : ℕ) : List TranscriptDict :=
  (List.range n).filterMap fun i => transcribe_audio (f.chunkFates i)

/-- What `transcribe_large_audio` does after a successful split into
`n` paths (main.py lines 390-428): a single path is transcribed
directly; otherwise every chunk is transcribed, failures are skipped,
an empty harvest returns `None`, and the rest is merged.  An
exception out of the merge would escape (no `try` around line 427). -/
def transcribeChunks (f : SourceFile) (n : ℕ) : Except Unit (Option PipelineResult) :=
  if n = 1 then .ok ((transcribe_audio (f.chunkFates 0)).map .single)
  else if (collectTranscripts f n).isEmpty then .ok none
  else
    match merge_transcripts ((collectTranscripts f n).map Transcript.dict) with
    | .error e => .error e
    | .ok mo => .ok (mo.map .merged)

/-- Embedding of the fresh-run path of `transcribe_large_audio`
(main.py lines 386-428; the two resume checks find nothing because
`cleanup_chunk_folders` emptied both folders at startup).  The outer
`Option` is the splitter's fuel; `Except.error` is an uncaught
exception escaping the function — the `split_audio_file` call on line
388 is not wrapped in any `try`. -/
def transcribe_large_audio (f : SourceFile) (fuel : ℕ) :
    Option (Except Unit (Option PipelineResult)) :=
  match split_audio_file f.sizeMB f.decoded 20 2 fuel with
  | .error e => some (.error e)
  | .ok none => none
  | .ok (some out) =>
    some (transcribeChunks f
      (match out with
       | .original => 1
       | .chunks rs => rs.length))

/-- Embedding of the `__main__` batch loop (main.py lines 495-517):
process the files in order; the loop body has no `try`, so an uncaught
exception aborts the whole run.  A fuel shortfall anywhere yields
`none`. -/
def processBatch (fuel : ℕ) : List SourceFile → Option (Except Unit (List (Option PipelineResult)))
  | [] => some (.ok [])
  | f :: rest =>
    match transcribe_large_audio f fuel with
    | none => none
    | some (.error e) => some (.error e)
    | some (.ok r) =>
      match processBatch fuel rest with
      | none => none
      | some (.error e) => some (.error e)
      | some (.ok rs) => some (.ok (r :: rs))

/-- Shape invariant of the chunk ranges emitted from position `start`:
each range begins where the previous one stopped, is nonempty, stays
inside the timeline, and the final position reaches the end. -/
def chunkChain (total : ℕ) : ℕ → List (ℕ × ℕ) → Prop
  | start, [] => total ≤ start
  | start, r :: rest => r.1 = start ∧ start < r.2 ∧ r.2 ≤ total ∧ chunkChain total r.2 rest

/-- Re-based segment list as the specification describes it: the
segments of fragment `i`, in fragment order, each shifted by the total
duration of the fragments strictly before `i`. -/
def rebasedSegments (ts : List Transcript) : List Segment :=
  (List.range ts.length).flatMap fun i =>
    (fragSegments (ts.getD i (Transcript.str ""))).map (adjustSegment (durationBefore ts i))

/-! ### Lemmas about the merge loop -/

theorem mergeLoop_segments (ts : List Transcript) : ∀ st : MergeState,
    (mergeLoop st ts).segments = st.segments ++ segsFrom st.timeOffset ts := by
  induction ts with
  | nil => intro st; simp [mergeLoop, segsFrom]
  | cons t ts ih =>
    intro st
    cases t with
    | str s =>
      simp [mergeLoop, mergeStep, segsFrom, ih, fragSegments, fragDuration]
    | dict d =>
      simp [mergeLoop, mergeStep, segsFrom, ih, fragSegments, fragDuration,
        List.append_assoc]

theorem mergeLoop_duration (ts : List Transcript) : ∀ st : MergeState,
    (mergeLoop st ts).duration = st.duration + (ts.map fragDuration).sum := by
  induction ts with
  | nil => intro st; simp [mergeLoop]
  | cons t ts ih =>
    intro st
    cases t with
    | str s => simp [mergeLoop, mergeStep, ih, fragDuration]
    | dict d => simp [mergeLoop, mergeStep, ih, fragDuration, add_assoc]

theorem mergeLoop_textParts (ts : List Transcript) : ∀ st : MergeState,
    (mergeLoop st ts).textParts = st.textParts ++ ts.map fragText := by
  induction ts with
  | nil => intro st; simp [mergeLoop]
  | cons t ts ih =>
    intro st
    cases t with
    | str s => simp [mergeLoop, mergeStep, ih, fragText]
    | dict d => simp [mergeLoop, mergeStep, ih, fragText]

theorem segsFrom_rebase (ts : List Transcript) : ∀ off : ℚ,
    segsFrom off ts = (List.range ts.length).flatMap fun i =>
      (fragSegments (ts.getD i (Transcript.str ""))).map
        (adjustSegment (off + durationBefore ts i)) := by
  induction ts with
  | nil => intro off; simp [segsFrom]
  | cons t ts ih =>
    intro off
    rw [segsFrom, ih (off + fragDuration t), List.length_cons,
      List.range_succ_eq_map, List.flatMap_cons, List.flatMap_map]
    congr 1
    · simp [durationBefore]
    · refine List.flatMap_congr fun i _ => ?_
      simp only [Function.comp, List.getD_cons_succ, durationBefore,
        List.take_succ_cons, List.map_cons, List.sum_cons, add_assoc]

theorem segsFrom_map_id_text (ts : List Transcript) : ∀ off : ℚ,
    (segsFrom off ts).map (fun s => (s.id, s.text)) =
      (ts.flatMap fragSegments).map (fun s => (s.id, s.text)) := by
  induction ts with
  | nil => intro off; simp [segsFrom]
  | cons t ts ih =>
    intro off
    simp only [segsFrom, List.flatMap_cons, List.map_append, ih, List.map_map]
    congr 1

theorem segsFrom_drop_str (s : String) (ys : List Transcript) :
    ∀ (xs : List Transcript) (off : ℚ),
      segsFrom off (xs ++ Transcript.str s :: ys) = segsFrom off (xs ++ ys) := by
  intro xs
  induction xs with
  | nil => intro off; simp [segsFrom, fragSegments, fragDuration]
  | cons x xs ih => intro off; simp [segsFrom, ih]

/-- C6: merging structured fragments in chunk-index order re-bases every
segment of fragment `i` by the sum of the durations of the fragments
strictly before `i` (a missing duration contributing 0), keeping the
segments in fragment order. -/
theorem merge_rebases_segments_by_earlier_durations
    (d0 : TranscriptDict) (ds : List TranscriptDict) :
    ∃ m, merge_transcripts (Transcript.dict d0 :: ds.map Transcript.dict) =
        .ok (some m) ∧
      m.segments = rebasedSegments (Transcript.dict d0 :: ds.map Transcript.dict) := by
  refine ⟨_, rfl, ?_⟩
  show (mergeLoop ⟨[], 0, [], 0⟩ (Transcript.dict d0 :: ds.map Transcript.dict)).segments = _
  rw [mergeLoop_segments]
  simp only [List.nil_append]
  rw [segsFrom_rebase, rebasedSegments]
  simp [zero_add]

/-- C8: a merge whose first fragment is a plain string raises at the
initialisation; a plain-string fragment in a later position only adds
its text, leaving the segment list, the accumulated duration, the
tags and the re-basing of all other fragments untouched. -/
theorem merge_string_fragment_policy :
    (∀ (s : String) (rest : List Transcript),
        merge_transcripts (Transcript.str s :: rest) = .error ()) ∧
    (∀ (d0 : TranscriptDict) (pre : List Transcript) (s : String)
        (post : List Transcript),
        ∃ m m',
          merge_transcripts (Transcript.dict d0 :: (pre ++ Transcript.str s :: post)) =
            .ok (some m) ∧
          merge_transcripts (Transcript.dict d0 :: (pre ++ post)) = .ok (some m') ∧
          m.segments = m'.segments ∧ m.duration = m'.duration ∧
          m.language = m'.language ∧ m.task = m'.task ∧
          m.text = String.intercalate " "
            (fragText (Transcript.dict d0) :: (pre.map fragText ++ s :: post.map fragText))) := by
  constructor
  · intro s rest; rfl
  · intro d0 pre s post
    refine ⟨_, _, rfl, rfl, ?_, ?_, rfl, rfl, ?_⟩
    · show (mergeLoop ⟨[], 0, [], 0⟩ (Transcript.dict d0 :: (pre ++ Transcript.str s :: post))).segments = _
      rw [mergeLoop_segments, mergeLoop_segments]
      show [] ++ segsFrom 0 (Transcript.dict d0 :: (pre ++ Transcript.str s :: post)) =
        [] ++ segsFrom 0 (Transcript.dict d0 :: (pre ++ post))
      rw [show Transcript.dict d0 :: (pre ++ Transcript.str s :: post) =
            (Transcript.dict d0 :: pre) ++ Transcript.str s :: post from rfl,
          segsFrom_drop_str]
      rfl
    · show (mergeLoop ⟨[], 0, [], 0⟩ (Transcript.dict d0 :: (pre ++ Transcript.str s :: post))).duration = _
      rw [mergeLoop_duration, mergeLoop_duration]
      simp [fragDuration]
    · show String.intercalate " "
          (mergeLoop ⟨[], 0, [], 0⟩ (Transcript.dict d0 :: (pre ++ Transcript.str s :: post))).textParts = _
      rw [mergeLoop_textParts]
      simp [fragText]

/-- C9: every segment the merge emits is a copy of the corresponding
input segment in which only the time fields were changed (shifted by
the running offset); the remaining fields, and the order and
multiplicity of the segments, are untouched. -/
theorem merge_copies_segments_changing_only_times
    (d0 : TranscriptDict) (rest : List Transcript) :
    ∃ m, merge_transcripts (Transcript.dict d0 :: rest) = .ok (some m) ∧
      m.segments = rebasedSegments (Transcript.dict d0 :: rest) ∧
      m.segments.map (fun s => (s.id, s.text)) =
        ((Transcript.dict d0 :: rest).flatMap fragSegments).map (fun s => (s.id, s.text)) := by
  refine ⟨_, rfl, ?_, ?_⟩
  · show (mergeLoop ⟨[], 0, [], 0⟩ (Transcript.dict d0 :: rest)).segments = _
    rw [mergeLoop_segments]
    simp only [List.nil_append]
    rw [segsFrom_rebase, rebasedSegments]
    simp [zero_add]
  · show (mergeLoop ⟨[], 0, [], 0⟩ (Transcript.dict d0 :: rest)).segments.map _ = _
    rw [mergeLoop_segments]
    simp only [List.nil_append]
    exact segsFrom_map_id_text _ 0

/-! ### Lemmas about the chunking loop -/

theorem silenceCandidate_inv (startPos idealEndPos totalDurationMs : ℕ)
    (fileSizeMB budgetMB : ℚ) (S : List (ℕ × ℕ)) (acc : Option ((ℕ × ℕ) × ℕ)) (p : ℕ × ℕ)
    (hp : p ∈ S)
    (hacc : ∀ q d, acc = some (q, d) → startPos < q.1 ∧ q ∈ S) :
    ∀ q d, silenceCandidate startPos idealEndPos totalDurationMs fileSizeMB budgetMB acc p =
        some (q, d) → startPos < q.1 ∧ q ∈ S := by
  intro q d h
  cases acc with
  | none =>
    simp only [silenceCandidate] at h
    by_cases h1 : startPos < p.1
    · rw [if_pos h1] at h
      by_cases h2 : ((((p.1 : ℤ) - (startPos : ℤ)).natAbs : ℚ) / 1000 *
          (fileSizeMB / (totalDurationMs : ℚ)) ≤ budgetMB)
      · rw [if_pos h2] at h
        simp only [Option.some.injEq, Prod.mk.injEq] at h
        obtain ⟨rfl, -⟩ := h
        exact ⟨h1, hp⟩
      · rw [if_neg h2] at h
        exact hacc q d h
    · rw [if_neg h1] at h
      exact hacc q d h
  | some qd =>
    obtain ⟨q0, m0⟩ := qd
    simp only [silenceCandidate] at h
    by_cases h1 : startPos < p.1
    · rw [if_pos h1] at h
      by_cases h2 : ((((p.1 : ℤ) - (startPos : ℤ)).natAbs : ℚ) / 1000 *
          (fileSizeMB / (totalDurationMs : ℚ)) ≤ budgetMB)
      · rw [if_pos h2] at h
        by_cases h3 : ((p.1 : ℤ) - (idealEndPos : ℤ)).natAbs < m0
        · rw [if_pos h3] at h
          simp only [Option.some.injEq, Prod.mk.injEq] at h
          obtain ⟨rfl, -⟩ := h
          exact ⟨h1, hp⟩
        · rw [if_neg h3] at h
          simp only [Option.some.injEq, Prod.mk.injEq] at h
          obtain ⟨rfl, rfl⟩ := h
          exact hacc q0 m0 rfl
      · rw [if_neg h2] at h
        exact hacc q d h
    · rw [if_neg h1] at h
      exact hacc q d h

theorem silenceFold_sound (startPos idealEndPos totalDurationMs : ℕ)
    (fileSizeMB budgetMB : ℚ) (S : List (ℕ × ℕ)) :
    ∀ (l : List (ℕ × ℕ)), (∀ x ∈ l, x ∈ S) →
      ∀ (acc : Option ((ℕ × ℕ) × ℕ)),
        (∀ q d, acc = some (q, d) → startPos < q.1 ∧ q ∈ S) →
        ∀ q d,
          l.foldl (silenceCandidate startPos idealEndPos totalDurationMs fileSizeMB budgetMB) acc =
            some (q, d) →
          startPos < q.1 ∧ q ∈ S := by
  intro l
  induction l with
  | nil => intro _ acc hacc q d h; exact hacc q d (by simpa using h)
  | cons p l ih =>
    intro hl acc hacc q d h
    rw [List.foldl_cons] at h
    exact ih (fun x hx => hl x (List.mem_cons_of_mem _ hx)) _
      (silenceCandidate_inv startPos idealEndPos totalDurationMs fileSizeMB budgetMB S acc p
        (hl p (List.mem_cons_self _ _)) hacc) q d h

theorem findClosestSilence_sound (silences : List (ℕ × ℕ))
    (startPos idealEndPos totalDurationMs : ℕ) (fileSizeMB budgetMB : ℚ) (p : ℕ × ℕ)
    (h : findClosestSilence silences startPos idealEndPos totalDurationMs fileSizeMB budgetMB =
      some p) :
    startPos < p.1 ∧ p ∈ silences := by
  rw [findClosestSilence] at h
  cases hf : silences.foldl
      (silenceCandidate startPos idealEndPos totalDurationMs fileSizeMB budgetMB) none with
  | none => rw [hf] at h; simp at h
  | some qd =>
    rw [hf] at h
    have hq : qd.1 = p := by simpa using h
    subst hq
    exact silenceFold_sound startPos idealEndPos totalDurationMs fileSizeMB budgetMB silences
      silences (fun x hx => hx) none (by simp) qd.1 qd.2 (by rw [hf])

theorem chunkEnd_ge_start (silences : List (ℕ × ℕ)) (totalDurationMs targetDur : ℕ)
    (fileSizeMB budgetMB : ℚ) (startPos : ℕ) (h : startPos < totalDurationMs) :
    startPos ≤ chunkEnd silences totalDurationMs targetDur fileSizeMB budgetMB startPos := by
  simp only [chunkEnd]
  by_cases h1 : totalDurationMs ≤ startPos + targetDur
  · rw [if_pos h1]; omega
  · rw [if_neg h1]
    cases hf : findClosestSilence silences startPos (startPos + targetDur) totalDurationMs
        fileSizeMB budgetMB with
    | none => show startPos ≤ startPos + targetDur; omega
    | some p =>
      exact le_of_lt (findClosestSilence_sound silences startPos (startPos + targetDur)
        totalDurationMs fileSizeMB budgetMB p hf).1

theorem chunkEnd_le_total (silences : List (ℕ × ℕ)) (totalDurationMs targetDur : ℕ)
    (fileSizeMB budgetMB : ℚ) (startPos : ℕ)
    (hsil : ∀ p ∈ silences, p.1 < totalDurationMs) :
    chunkEnd silences totalDurationMs targetDur fileSizeMB budgetMB startPos ≤ totalDurationMs := by
  simp only [chunkEnd]
  by_cases h1 : totalDurationMs ≤ startPos + targetDur
  · rw [if_pos h1]
  · rw [if_neg h1]
    cases hf : findClosestSilence silences startPos (startPos + targetDur) totalDurationMs
        fileSizeMB budgetMB with
    | none => show startPos + targetDur ≤ totalDurationMs; omega
    | some p =>
      exact le_of_lt (hsil p (findClosestSilence_sound silences startPos (startPos + targetDur)
        totalDurationMs fileSizeMB budgetMB p hf).2)

theorem splitLoop_stuck (silences : List (ℕ × ℕ)) (totalDurationMs targetDur : ℕ)
    (fileSizeMB budgetMB : ℚ) (startPos : ℕ)
    (hlt : startPos < totalDurationMs)
    (heq : chunkEnd silences totalDurationMs targetDur fileSizeMB budgetMB startPos = startPos) :
    ∀ fuel, splitLoop silences totalDurationMs targetDur fileSizeMB budgetMB fuel startPos = none := by
  intro fuel
  induction fuel with
  | zero => rfl
  | succ n ih =>
    simp only [splitLoop]
    rw [if_pos hlt, heq, ih]
    rfl

theorem splitLoop_chunkChain (silences : List (ℕ × ℕ)) (totalDurationMs targetDur : ℕ)
    (fileSizeMB budgetMB : ℚ)
    (hsil : ∀ p ∈ silences, p.1 < totalDurationMs) :
    ∀ (fuel startPos : ℕ) (rs : List (ℕ × ℕ)),
      splitLoop silences totalDurationMs targetDur fileSizeMB budgetMB fuel startPos = some rs →
      chunkChain totalDurationMs startPos rs := by
  intro fuel
  induction fuel with
  | zero =>
    intro startPos rs h
    exact absurd h (by simp [splitLoop])
  | succ n ih =>
    intro startPos rs h
    simp only [splitLoop] at h
    by_cases hlt : startPos < totalDurationMs
    · rw [if_pos hlt] at h
      cases hrec : splitLoop silences totalDurationMs targetDur fileSizeMB budgetMB n
          (chunkEnd silences totalDurationMs targetDur fileSizeMB budgetMB startPos) with
      | none => rw [hrec] at h; simp at h
      | some rest =>
        rw [hrec] at h
        simp only [Option.map_some'] at h
        obtain rfl : (startPos,
            chunkEnd silences totalDurationMs targetDur fileSizeMB budgetMB startPos) :: rest =
            rs := by simpa using h
        have hne : startPos <
            chunkEnd silences totalDurationMs targetDur fileSizeMB budgetMB startPos := by
          rcases Nat.lt_or_ge startPos
              (chunkEnd silences totalDurationMs targetDur fileSizeMB budgetMB startPos) with
            hgt | hge
          · exact hgt
          · have heq : chunkEnd silences totalDurationMs targetDur fileSizeMB budgetMB startPos =
                startPos :=
              le_antisymm hge
                (chunkEnd_ge_start silences totalDurationMs targetDur fileSizeMB budgetMB
                  startPos hlt)
            rw [heq] at hrec
            rw [splitLoop_stuck silences totalDurationMs targetDur fileSizeMB budgetMB startPos
              hlt heq n] at hrec
            cases hrec
        exact ⟨rfl, hne,
          chunkEnd_le_total silences totalDurationMs targetDur fileSizeMB budgetMB startPos hsil,
          ih _ rest hrec⟩
    · rw [if_neg hlt] at h
      obtain rfl : ([] : List (ℕ × ℕ)) = rs := by simpa using h
      show totalDurationMs ≤ startPos
      omega

theorem chunkChain_mem_bounds (total : ℕ) : ∀ (start : ℕ) (rs : List (ℕ × ℕ)),
    chunkChain total start rs → ∀ r ∈ rs, start ≤ r.1 ∧ r.1 < r.2 ∧ r.2 ≤ total := by
  intro start rs
  induction rs generalizing start with
  | nil => intro _ r hr; cases hr
  | cons a rs ih =>
    intro h r hr
    obtain ⟨ha1, ha2, ha3, hrest⟩ := h
    rcases List.mem_cons.mp hr with rfl | hr
    · exact ⟨le_of_eq ha1.symm, by omega, ha3⟩
    · have hb := ih a.2 hrest r hr
      exact ⟨by omega, hb.2.1, hb.2.2⟩

theorem chunkChain_chain (total : ℕ) : ∀ (start : ℕ) (rs : List (ℕ × ℕ)),
    chunkChain total start rs → List.Chain' (fun r r2 => r.2 = r2.1) rs := by
  intro start rs
  induction rs generalizing start with
  | nil => intro _; exact List.chain'_nil
  | cons a rs ih =>
    intro h
    obtain ⟨-, -, -, hrest⟩ := h
    cases rs with
    | nil => exact List.chain'_singleton a
    | cons b rs2 =>
      obtain ⟨hb1, hb2, hb3, hb4⟩ := hrest
      exact List.chain'_cons.mpr ⟨hb1.symm, ih a.2 ⟨hb1, hb2, hb3, hb4⟩⟩

theorem chunkChain_pairwise (total : ℕ) : ∀ (start : ℕ) (rs : List (ℕ × ℕ)),
    chunkChain total start rs → List.Pairwise (fun r r2 => r.2 ≤ r2.1) rs := by
  intro start rs
  induction rs generalizing start with
  | nil => intro _; exact List.Pairwise.nil
  | cons a rs ih =>
    intro h
    obtain ⟨-, -, -, hrest⟩ := h
    refine List.Pairwise.cons (fun b hb => ?_) (ih a.2 hrest)
    exact (chunkChain_mem_bounds total a.2 rs hrest b hb).1

theorem chunkChain_last (total : ℕ) : ∀ (start : ℕ) (rs : List (ℕ × ℕ)) (r : ℕ × ℕ),
    chunkChain total start rs → rs.getLast? = some r → r.2 = total := by
  intro start rs
  induction rs generalizing start with
  | nil => intro r _ hl; simp at hl
  | cons a rs ih =>
    intro r h hl
    obtain ⟨-, -, ha3, hrest⟩ := h
    cases rs with
    | nil =>
      simp only [List.getLast?_singleton, Option.some.injEq] at hl
      subst hl
      have htot : total ≤ a.2 := hrest
      omega
    | cons b rs2 =>
      rw [List.getLast?_cons_cons] at hl
      exact ih a.2 r hrest hl

theorem chunkChain_cover (total : ℕ) : ∀ (start : ℕ) (rs : List (ℕ × ℕ)),
    chunkChain total start rs → ∀ t, start ≤ t → t < total →
      ∃! r, r ∈ rs ∧ r.1 ≤ t ∧ t < r.2 := by
  intro start rs
  induction rs generalizing start with
  | nil =>
    intro h t ht1 ht2
    have : total ≤ start := h
    omega
  | cons a rs ih =>
    intro h t ht1 ht2
    obtain ⟨ha1, ha2, ha3, hrest⟩ := h
    by_cases htb : t < a.2
    · refine ⟨a, ⟨List.mem_cons_self _ _, by omega, htb⟩, ?_⟩
      rintro r ⟨hr, hr1, hr2⟩
      rcases List.mem_cons.mp hr with rfl | hr
      · rfl
      · have hb := chunkChain_mem_bounds total a.2 rs hrest r hr
        omega
    · obtain ⟨r0, hr0, huniq⟩ := ih a.2 hrest t (by omega) ht2
      refine ⟨r0, ⟨List.mem_cons_of_mem _ hr0.1, hr0.2.1, hr0.2.2⟩, ?_⟩
      rintro r ⟨hr, hr1, hr2⟩
      rcases List.mem_cons.mp hr with rfl | hr
      · omega
      · exact huniq r ⟨hr, hr1, hr2⟩

/-- Concrete run of the splitter on the specification's end-to-end
scenario: a 60000 ms timeline whose silence map is exactly
`[29800, 30200)`, a 40 MB file, target 20 MB, tolerance 2 MB (so the
computed target chunk duration is 30000 ms). -/
theorem splitEval_scenario :
    split_audio_file 40 (some ⟨60000, [(0, 29800), (30200, 60000)]⟩) 20 2 5 =
      .ok (some (.chunks [(0, 29800), (29800, 59800), (59800, 60000)])) := by
  have ht : targetChunkDuration 60000 20 40 = 30000 := by
    rw [targetChunkDuration]; norm_num; decide
  have hd : detect_silence [(0, 29800), (30200, 60000)] 60000 = [(29800, 30200)] := by decide
  have hb : ((20 : ℚ) + 2) = 22 := by norm_num
  have e0 : chunkEnd [(29800, 30200)] 60000 30000 40 22 0 = 29800 := by
    norm_num [chunkEnd, findClosestSilence, silenceCandidate]
  have e1 : chunkEnd [(29800, 30200)] 60000 30000 40 22 29800 = 59800 := by
    norm_num [chunkEnd, findClosestSilence, silenceCandidate]
  have e2 : chunkEnd [(29800, 30200)] 60000 30000 40 22 59800 = 60000 := by
    norm_num [chunkEnd, findClosestSilence, silenceCandidate]
  have hloop : splitLoop [(29800, 30200)] 60000 30000 40 22 5 0 =
      some [(0, 29800), (29800, 59800), (59800, 60000)] := by
    simp only [splitLoop, e0, e1, e2]
    norm_num
  simp only [split_audio_file]
  rw [if_neg (by norm_num : ¬ (40 : ℚ) ≤ 20 + 2), hd, ht, hb, hloop]
  rfl

/-- C2 counterexample: on the scenario of the claim (60000 ms timeline,
silence map exactly `[29800, 30200)`, targetSizeMB 20, toleranceMB 2,
a 40 MB file making the computed target duration 30000 ms and the
silence at 29800 admissible) the code does not produce the claimed two
chunks `[0,29800)`, `[29800,60000)`. -/
theorem split_scenario_not_two_chunks :
    split_audio_file 40 (some ⟨60000, [(0, 29800), (30200, 60000)]⟩) 20 2 5 =
      .ok (some (.chunks [(0, 29800), (29800, 59800), (59800, 60000)])) ∧
    ¬ split_audio_file 40 (some ⟨60000, [(0, 29800), (30200, 60000)]⟩) 20 2 5 =
      .ok (some (.chunks [(0, 29800), (29800, 60000)])) := by
  refine ⟨splitEval_scenario, fun hcontra => ?_⟩
  rw [splitEval_scenario] at hcontra
  simp at hcontra

/-- C2 amended: on that scenario the code produces exactly three
chunks `[0,29800)`, `[29800,59800)` and `[59800,60000)` — after the
cut at the silence start 29800, the next ideal end 59800 is still
below 60000 and no silence lies strictly after 29800, so the fallback
cuts at 59800 and a final 200 ms chunk remains. -/
theorem split_scenario_three_chunks :
    split_audio_file 40 (some ⟨60000, [(0, 29800), (30200, 60000)]⟩) 20 2 5 =
      .ok (some (.chunks [(0, 29800), (29800, 59800), (59800, 60000)])) :=
  splitEval_scenario

/-- C3: the source's extrapolated-size guard divides the millisecond
distance by 1000 before multiplying by the per-millisecond size ratio,
so it admits a cut whose extrapolated size wildly exceeds
`targetSizeMB + toleranceMB`: on a 40 MB, 60000 ms file with the single
silence `[59000, 59500)`, the first chunk is cut at 59000 although the
extrapolated size of `[0, 59000)` is `59000 * (40 / 60000) > 22` MB. -/
theorem silence_guard_accepts_oversize_chunk :
    split_audio_file 40 (some ⟨60000, [(0, 59000), (59500, 60000)]⟩) 20 2 5 =
      .ok (some (.chunks [(0, 59000), (59000, 60000)])) ∧
    ¬ (((59000 : ℚ) - 0) * (40 / 60000) ≤ 20 + 2) := by
  constructor
  · have ht : targetChunkDuration 60000 20 40 = 30000 := by
      rw [targetChunkDuration]; norm_num; decide
    have hd : detect_silence [(0, 59000), (59500, 60000)] 60000 = [(59000, 59500)] := by decide
    have hb : ((20 : ℚ) + 2) = 22 := by norm_num
    have e0 : chunkEnd [(59000, 59500)] 60000 30000 40 22 0 = 59000 := by
      norm_num [chunkEnd, findClosestSilence, silenceCandidate]
    have e1 : chunkEnd [(59000, 59500)] 60000 30000 40 22 59000 = 60000 := by
      norm_num [chunkEnd, findClosestSilence, silenceCandidate]
    have hloop : splitLoop [(59000, 59500)] 60000 30000 40 22 5 0 =
        some [(0, 59000), (59000, 60000)] := by
      simp only [splitLoop, e0, e1]
      norm_num
    simp only [split_audio_file]
    rw [if_neg (by norm_num : ¬ (40 : ℚ) ≤ 20 + 2), hd, ht, hb, hloop]
    rfl
  · norm_num

/-- C7: a source file whose size is at most `targetSizeMB + toleranceMB`
is returned unchanged as the single result, for every decode outcome —
including a failing one, showing no decoding happens — and every fuel:
no chunk is exported and no re-encoding or copy is performed. -/
theorem split_short_circuit (fileSizeMB targetSizeMB sizeToleranceMB : ℚ)
    (decoded : Option AudioData) (fuel : ℕ)
    (h : fileSizeMB ≤ targetSizeMB + sizeToleranceMB) :
    split_audio_file fileSizeMB decoded targetSizeMB sizeToleranceMB fuel =
      .ok (some .original) := by
  simp only [split_audio_file]
  rw [if_pos h]

/-- Witness for `split_short_circuit` at a concrete input: a 10 MB file
with no decodable audio at all and zero fuel still yields the original
path. -/
theorem split_short_circuit_witness :
    ((10 : ℚ) ≤ 20 + 2) ∧
    split_audio_file 10 none 20 2 0 = .ok (some .original) :=
  ⟨by norm_num, split_short_circuit 10 20 2 none 0 (by norm_num)⟩

theorem chunkEnd_progress (silences : List (ℕ × ℕ)) (totalDurationMs targetDur : ℕ)
    (fileSizeMB budgetMB : ℚ) (hdur : 1 ≤ targetDur) :
    ∀ s, s < totalDurationMs →
      s < chunkEnd silences totalDurationMs targetDur fileSizeMB budgetMB s := by
  intro s hs
  simp only [chunkEnd]
  by_cases h1 : totalDurationMs ≤ s + targetDur
  · rw [if_pos h1]; exact hs
  · rw [if_neg h1]
    cases hf : findClosestSilence silences s (s + targetDur) totalDurationMs
        fileSizeMB budgetMB with
    | none => show s < s + targetDur; omega
    | some p =>
      exact (findClosestSilence_sound silences s (s + targetDur) totalDurationMs
        fileSizeMB budgetMB p hf).1

theorem splitLoop_total (silences : List (ℕ × ℕ)) (totalDurationMs targetDur : ℕ)
    (fileSizeMB budgetMB : ℚ)
    (hprog : ∀ s, s < totalDurationMs →
      s < chunkEnd silences totalDurationMs targetDur fileSizeMB budgetMB s) :
    ∀ (fuel startPos : ℕ), totalDurationMs - startPos < fuel →
      ∃ rs, splitLoop silences totalDurationMs targetDur fileSizeMB budgetMB fuel startPos =
        some rs := by
  intro fuel
  induction fuel with
  | zero => intro s h; omega
  | succ n ih =>
    intro startPos hf
    by_cases hlt : startPos < totalDurationMs
    · have he := hprog startPos hlt
      obtain ⟨rs, hrs⟩ := ih
        (chunkEnd silences totalDurationMs targetDur fileSizeMB budgetMB startPos) (by omega)
      refine ⟨(startPos, chunkEnd silences totalDurationMs targetDur fileSizeMB budgetMB
        startPos) :: rs, ?_⟩
      simp only [splitLoop]
      rw [if_pos hlt, hrs]
      rfl
    · refine ⟨[], ?_⟩
      simp only [splitLoop]
      rw [if_neg hlt]

/-- C10: for an oversize input whose computed target chunk duration is
at least 1 ms, every iteration of the splitting loop strictly
increases the start position — a selected silence starts strictly
after it, and the fallback adds the positive target duration — so the
loop terminates (fuel `totalDurationMs + 1` suffices). -/
theorem split_loop_terminates (fileSizeMB targetSizeMB sizeToleranceMB : ℚ) (a : AudioData)
    (hbig : ¬ fileSizeMB ≤ targetSizeMB + sizeToleranceMB)
    (hdur : 1 ≤ targetChunkDuration a.totalDurationMs targetSizeMB fileSizeMB) :
    (∀ s, s < a.totalDurationMs →
      s < chunkEnd (detect_silence a.nonSilentRanges a.totalDurationMs) a.totalDurationMs
        (targetChunkDuration a.totalDurationMs targetSizeMB fileSizeMB) fileSizeMB
        (targetSizeMB + sizeToleranceMB) s) ∧
    ∃ ranges, split_audio_file fileSizeMB (some a) targetSizeMB sizeToleranceMB
      (a.totalDurationMs + 1) = .ok (some (.chunks ranges)) := by
  have hprog := chunkEnd_progress (detect_silence a.nonSilentRanges a.totalDurationMs)
    a.totalDurationMs (targetChunkDuration a.totalDurationMs targetSizeMB fileSizeMB)
    fileSizeMB (targetSizeMB + sizeToleranceMB) hdur
  refine ⟨hprog, ?_⟩
  obtain ⟨rs, hrs⟩ := splitLoop_total _ _ _ _ _ hprog (a.totalDurationMs + 1) 0 (by omega)
  refine ⟨rs, ?_⟩
  simp only [split_audio_file]
  rw [if_neg hbig, hrs]
  rfl

/-- Witness for `split_loop_terminates` at a concrete input: the 40 MB,
60000 ms scenario file terminates with some chunk list. -/
theorem split_loop_terminates_witness :
    (¬ (40 : ℚ) ≤ 20 + 2) ∧
    1 ≤ targetChunkDuration 60000 20 40 ∧
    ∃ ranges, split_audio_file 40 (some ⟨60000, [(0, 29800), (30200, 60000)]⟩) 20 2 60001 =
      .ok (some (.chunks ranges)) := by
  have ht : targetChunkDuration 60000 20 40 = 30000 := by
    rw [targetChunkDuration]; norm_num; decide
  refine ⟨by norm_num, by rw [ht]; norm_num, ?_⟩
  exact (split_loop_terminates 40 20 2 ⟨60000, [(0, 29800), (30200, 60000)]⟩
    (by norm_num) (by rw [ht]; norm_num)).2

/-- C4: whenever the splitter runs to completion on an oversize file
(size above `targetSizeMB + toleranceMB`), the chunk ranges it emits
are nonempty, start at 0, end at the total duration, are contiguous
(each range's end is the next range's start), nonempty and inside the
timeline, pairwise non-overlapping in index order, and cover every
millisecond of `[0, totalDuration)` exactly once.  The silence map of
any real timeline has all its starts below the total duration, which
is the third hypothesis. -/
theorem split_chunks_partition
    (fileSizeMB targetSizeMB sizeToleranceMB : ℚ) (a : AudioData) (fuel : ℕ)
    (ranges : List (ℕ × ℕ))
    (hbig : ¬ fileSizeMB ≤ targetSizeMB + sizeToleranceMB)
    (hpos : 0 < a.totalDurationMs)
    (hsil : ∀ p ∈ detect_silence a.nonSilentRanges a.totalDurationMs, p.1 < a.totalDurationMs)
    (hres : split_audio_file fileSizeMB (some a) targetSizeMB sizeToleranceMB fuel =
      .ok (some (.chunks ranges))) :
    ranges ≠ [] ∧
    ranges.head?.map Prod.fst = some 0 ∧
    ranges.getLast?.map Prod.snd = some a.totalDurationMs ∧
    List.Chain' (fun r r2 => r.2 = r2.1) ranges ∧
    (∀ r ∈ ranges, r.1 < r.2 ∧ r.2 ≤ a.totalDurationMs) ∧
    List.Pairwise (fun r r2 => r.2 ≤ r2.1) ranges ∧
    (∀ t, t < a.totalDurationMs → ∃! r, r ∈ ranges ∧ r.1 ≤ t ∧ t < r.2) := by
  simp only [split_audio_file] at hres
  rw [if_neg hbig] at hres
  have hloop : splitLoop (detect_silence a.nonSilentRanges a.totalDurationMs)
      a.totalDurationMs (targetChunkDuration a.totalDurationMs targetSizeMB fileSizeMB)
      fileSizeMB (targetSizeMB + sizeToleranceMB) fuel 0 = some ranges := by
    cases hl : splitLoop (detect_silence a.nonSilentRanges a.totalDurationMs)
        a.totalDurationMs (targetChunkDuration a.totalDurationMs targetSizeMB fileSizeMB)
        fileSizeMB (targetSizeMB + sizeToleranceMB) fuel 0 with
    | none => rw [hl] at hres; simp at hres
    | some rs =>
      rw [hl] at hres
      simp only [Option.map_some', Except.ok.injEq, Option.some.injEq] at hres
      obtain rfl : rs = ranges := by
        cases hres
        rfl
      rfl
  have hchain := splitLoop_chunkChain (detect_silence a.nonSilentRanges a.totalDurationMs)
    a.totalDurationMs (targetChunkDuration a.totalDurationMs targetSizeMB fileSizeMB)
    fileSizeMB (targetSizeMB + sizeToleranceMB) hsil fuel 0 ranges hloop
  have hne : ranges ≠ [] := by
    intro hnil
    subst hnil
    have htot : a.totalDurationMs ≤ 0 := hchain
    omega
  have hmem := chunkChain_mem_bounds a.totalDurationMs 0 ranges hchain
  refine ⟨hne, ?_, ?_, chunkChain_chain a.totalDurationMs 0 ranges hchain,
    fun r hr => ⟨(hmem r hr).2.1, (hmem r hr).2.2⟩,
    chunkChain_pairwise a.totalDurationMs 0 ranges hchain,
    fun t ht => chunkChain_cover a.totalDurationMs 0 ranges hchain t (Nat.zero_le t) ht⟩
  · cases ranges with
    | nil => exact absurd rfl hne
    | cons r rest =>
      have h1 : r.1 = 0 := hchain.1
      simp [h1]
  · cases hlast : ranges.getLast? with
    | none => exact absurd (List.getLast?_eq_none_iff.mp hlast) hne
    | some r =>
      have h2 := chunkChain_last a.totalDurationMs 0 ranges r hchain hlast
      simp [h2]

/-- Witness for `split_chunks_partition` at a concrete input: the 40 MB
scenario file splits into three ranges that start at 0 and end at
60000. -/
theorem split_chunks_partition_witness :
    (¬ (40 : ℚ) ≤ 20 + 2) ∧
    ([(0, 29800), (29800, 59800), (59800, 60000)] : List (ℕ × ℕ)) ≠ [] ∧
    ([(0, 29800), (29800, 59800), (59800, 60000)] : List (ℕ × ℕ)).head?.map Prod.fst =
      some 0 ∧
    ([(0, 29800), (29800, 59800), (59800, 60000)] : List (ℕ × ℕ)).getLast?.map Prod.snd =
      some 60000 := by
  have h := split_chunks_partition 40 20 2 ⟨60000, [(0, 29800), (30200, 60000)]⟩ 5
    [(0, 29800), (29800, 59800), (59800, 60000)]
    (by norm_num) (by norm_num) (by decide) splitEval_scenario
  exact ⟨by norm_num, h.1, h.2.1, h.2.2.1⟩

/-- C1 counterexample: `transcribe_audio` submits a 30 MB file — above
the 25 MB API ceiling — whenever it exists and loads: no size
verification of any kind precedes the call to the remote API, on any
path. -/
theorem transcribe_oversize_submitted :
    transcribe_audio_submits ⟨30, true, true, none⟩ = true ∧ ¬ ((30 : ℚ) ≤ 25) :=
  ⟨rfl, by norm_num⟩

/-- C1 amended: submission to the remote API is decided only by the
existence check and the pydub verification load; a file of any size
whatsoever that passes both is submitted. -/
theorem transcribe_submits_ignores_size (sizeMB : ℚ) (r : Option TranscriptDict) :
    transcribe_audio_submits ⟨sizeMB, true, true, r⟩ = true := rfl

theorem transcribeChunks_no_error (f : SourceFile) (n : ℕ) :
    ∀ e, ¬ transcribeChunks f n = .error e := by
  intro e hc
  simp only [transcribeChunks] at hc
  by_cases h1 : n = 1
  · rw [if_pos h1] at hc
    exact Except.noConfusion hc
  · rw [if_neg h1] at hc
    by_cases h2 : (collectTranscripts f n).isEmpty = true
    · rw [if_pos h2] at hc
      exact Except.noConfusion hc
    · rw [if_neg h2] at hc
      cases hts : collectTranscripts f n with
      | nil => rw [hts] at h2; simp at h2
      | cons d ts2 =>
        rw [hts] at hc
        exact Except.noConfusion hc

/-- C5 counterexample: a batch of two files in which the first is
oversize and fails to decode.  The decode exception raised inside
`split_audio_file` (main.py line 99) escapes `transcribe_large_audio`
and the unguarded driver loop, so the whole run aborts and the second
file — which on its own is processed fine — is never reached. -/
theorem batch_aborts_on_split_decode_error :
    processBatch 3
      [⟨30, none, fun _ => ⟨1, true, true, some ⟨some "hi", none, none, some 10, []⟩⟩⟩,
       ⟨10, some ⟨1000, []⟩,
        fun _ => ⟨1, true, true, some ⟨some "hi", none, none, some 10, []⟩⟩⟩] =
      some (.error ()) ∧
    processBatch 3
      [⟨10, some ⟨1000, []⟩,
        fun _ => ⟨1, true, true, some ⟨some "hi", none, none, some 10, []⟩⟩⟩] =
      some (.ok [some (.single ⟨some "hi", none, none, some 10, []⟩)]) := by
  have hs1 : split_audio_file 30 none 20 2 3 = .error () := by
    simp only [split_audio_file]
    rw [if_neg (by norm_num : ¬ (30 : ℚ) ≤ 20 + 2)]
  have hs2 : split_audio_file 10 (some ⟨1000, []⟩) 20 2 3 = .ok (some .original) := by
    simp only [split_audio_file]
    rw [if_pos (by norm_num : (10 : ℚ) ≤ 20 + 2)]
  constructor
  · simp only [processBatch, transcribe_large_audio]
    rw [hs1]
  · simp only [processBatch, transcribe_large_audio]
    rw [hs2]
    rfl

/-- C5 amended: only failures inside `transcribe_audio` (remote-call,
validation and load errors, all caught there) are contained; as long
as every file's split step itself returns, the driver processes the
whole batch and yields one result slot per file, whatever the
per-chunk transcription outcomes are. -/
theorem batch_continues_past_contained_failures (files : List SourceFile) (fuel : ℕ)
    (h : ∀ f ∈ files, ∃ out, split_audio_file f.sizeMB f.decoded 20 2 fuel = .ok (some out)) :
    ∃ rs, processBatch fuel files = some (.ok rs) ∧ rs.length = files.length := by
  induction files with
  | nil => exact ⟨[], rfl, rfl⟩
  | cons f rest ih =>
    obtain ⟨out, hout⟩ := h f (List.mem_cons_self _ _)
    obtain ⟨rs, hrs, hlen⟩ := ih (fun g hg => h g (List.mem_cons_of_mem _ hg))
    obtain ⟨n, hstep⟩ : ∃ n, transcribe_large_audio f fuel =
        some (transcribeChunks f n) := by
      cases out with
      | original =>
        refine ⟨1, ?_⟩
        simp only [transcribe_large_audio]
        rw [hout]
      | chunks rcs =>
        refine ⟨rcs.length, ?_⟩
        simp only [transcribe_large_audio]
        rw [hout]
    obtain ⟨r, hr⟩ : ∃ r, transcribeChunks f n = .ok r := by
      cases hc : transcribeChunks f n with
      | error e => exact absurd hc (transcribeChunks_no_error f n e)
      | ok r => exact ⟨r, rfl⟩
    refine ⟨r :: rs, ?_, by simp [hlen]⟩
    simp only [processBatch]
    rw [hstep, hr, hrs]

/-- Witness for `batch_continues_past_contained_failures`: a two-file
batch whose first file's remote call fails is still processed end to
end, producing two result slots. -/
theorem batch_continues_past_contained_failures_witness :
    (∀ f ∈ ([⟨10, some ⟨1000, []⟩, fun _ => ⟨1, true, true, none⟩⟩,
             ⟨10, some ⟨1000, []⟩,
              fun _ => ⟨1, true, true, some ⟨some "hi", none, none, some 10, []⟩⟩⟩] :
        List SourceFile),
      ∃ out, split_audio_file f.sizeMB f.decoded 20 2 3 = .ok (some out)) ∧
    ∃ rs, processBatch 3
        [⟨10, some ⟨1000, []⟩, fun _ => ⟨1, true, true, none⟩⟩,
         ⟨10, some ⟨1000, []⟩,
          fun _ => ⟨1, true, true, some ⟨some "hi", none, none, some 10, []⟩⟩⟩] =
      some (.ok rs) ∧ rs.length = 2 := by
  have hmem : ∀ f ∈ ([⟨10, some ⟨1000, []⟩, fun _ => ⟨1, true, true, none⟩⟩,
      ⟨10, some ⟨1000, []⟩,
       fun _ => ⟨1, true, true, some ⟨some "hi", none, none, some 10, []⟩⟩⟩] :
      List SourceFile),
      ∃ out, split_audio_file f.sizeMB f.decoded 20 2 3 = .ok (some out) := by
    intro f hf
    rcases List.mem_cons.mp hf with rfl | hf
    · refine ⟨.original, ?_⟩
      simp only [split_audio_file]
      rw [if_pos (by norm_num : (10 : ℚ) ≤ 20 + 2)]
    · rcases List.mem_cons.mp hf with rfl | hf
      · refine ⟨.original, ?_⟩
        simp only [split_audio_file]
        rw [if_pos (by norm_num : (10 : ℚ) ≤ 20 + 2)]
      · exact absurd hf (List.not_mem_nil f)
  exact ⟨hmem, batch_continues_past_contained_failures _ 3 hmem⟩
